import Mathlib

/-!
Shallow embedding of the `dbms` repository's columnar data model and
data-source scanning layer (crates `dtype` and `dsource`), together with
theorems settling the specification claims about them.

Conventions of the embedding:
* Rust `Result<T, String>` becomes `Except String T`.
* A Rust panic / abort is modelled by an outer `Option`: `none` is a panic.
* Machine integers become `Int` (signed) and `Nat` (unsigned); `f32`/`f64`
  payloads are carried as opaque bit patterns (`Nat`), since no modelled
  operation inspects float values.
* File input and the external Arrow/Parquet decoders are out of the
  repository's scope; they are modelled as fixed outcome fields on the
  source structures (the behaviour of one unchanged underlying file), with
  definitions marked `Modelled from the spec:` where the repository calls
  collaborator code that is not part of the crates' sources.
-/

namespace Dbms

/-- Supported data types, a subset of Arrow's type system
(`dtype/src/lib.rs`, `enum DataType`). -/
inductive DataType where
  | Boolean
  | Int8
  | Int16
  | Int32
  | Int64
  | UInt8
  | UInt16
  | UInt32
  | UInt64
  | Float32
  | Float64
  | Utf8
  | Binary
deriving DecidableEq, Fintype

/-- External Arrow type tags: the thirteen supported tags plus
representatives of tags outside the supported subset
(`arrow::datatypes::DataType`, external collaborator). -/
inductive ArrowDataType where
  | Boolean
  | Int8
  | Int16
  | Int32
  | Int64
  | UInt8
  | UInt16
  | UInt32
  | UInt64
  | Float32
  | Float64
  | Utf8
  | Binary
  | Null
  | Float16
  | Date32
  | LargeUtf8
deriving DecidableEq, Fintype, Repr

/-- Conversion `impl From<DataType> for ArrowDataType` (`dtype/src/lib.rs`). -/
def DataType.toArrow : DataType → ArrowDataType
  | .Boolean => .Boolean
  | .Int8 => .Int8
  | .Int16 => .Int16
  | .Int32 => .Int32
  | .Int64 => .Int64
  | .UInt8 => .UInt8
  | .UInt16 => .UInt16
  | .UInt32 => .UInt32
  | .UInt64 => .UInt64
  | .Float32 => .Float32
  | .Float64 => .Float64
  | .Utf8 => .Utf8
  | .Binary => .Binary

/-- Conversion `impl TryFrom<ArrowDataType> for DataType` (`dtype/src/lib.rs`):
tags outside the supported subset are a recoverable error. -/
def DataType.tryFromArrow : ArrowDataType → Except String DataType
  | .Boolean => .ok .Boolean
  | .Int8 => .ok .Int8
  | .Int16 => .ok .Int16
  | .Int32 => .ok .Int32
  | .Int64 => .ok .Int64
  | .UInt8 => .ok .UInt8
  | .UInt16 => .ok .UInt16
  | .UInt32 => .ok .UInt32
  | .UInt64 => .ok .UInt64
  | .Float32 => .ok .Float32
  | .Float64 => .ok .Float64
  | .Utf8 => .ok .Utf8
  | .Binary => .ok .Binary
  | other => .error ("unsupported Arrow type: " ++ reprStr other)

/-- A scalar value that can be broadcast across rows
(`dtype/src/column.rs`, `enum Scalar`); `none` payload is SQL null. -/
inductive Scalar where
  | Boolean (v : Option Bool)
  | Int8 (v : Option Int)
  | Int16 (v : Option Int)
  | Int32 (v : Option Int)
  | Int64 (v : Option Int)
  | UInt8 (v : Option Nat)
  | UInt16 (v : Option Nat)
  | UInt32 (v : Option Nat)
  | UInt64 (v : Option Nat)
  | Float32 (v : Option Nat)
  | Float64 (v : Option Nat)
  | Utf8 (v : Option String)
  | Binary (v : Option (List Nat))
deriving DecidableEq

/-- Creates a null Scalar of the given data type (`Scalar::null`). -/
def Scalar.null : DataType → Scalar
  | .Boolean => .Boolean none
  | .Int8 => .Int8 none
  | .Int16 => .Int16 none
  | .Int32 => .Int32 none
  | .Int64 => .Int64 none
  | .UInt8 => .UInt8 none
  | .UInt16 => .UInt16 none
  | .UInt32 => .UInt32 none
  | .UInt64 => .UInt64 none
  | .Float32 => .Float32 none
  | .Float64 => .Float64 none
  | .Utf8 => .Utf8 none
  | .Binary => .Binary none

/-- Returns the data type of this scalar (`Scalar::dtype`). -/
def Scalar.dtype : Scalar → DataType
  | .Boolean _ => .Boolean
  | .Int8 _ => .Int8
  | .Int16 _ => .Int16
  | .Int32 _ => .Int32
  | .Int64 _ => .Int64
  | .UInt8 _ => .UInt8
  | .UInt16 _ => .UInt16
  | .UInt32 _ => .UInt32
  | .UInt64 _ => .UInt64
  | .Float32 _ => .Float32
  | .Float64 _ => .Float64
  | .Utf8 _ => .Utf8
  | .Binary _ => .Binary

/-- A non-null primitive payload stored in an external Arrow array cell. -/
inductive ArrowValue where
  | Boolean (v : Bool)
  | Int8 (v : Int)
  | Int16 (v : Int)
  | Int32 (v : Int)
  | Int64 (v : Int)
  | UInt8 (v : Nat)
  | UInt16 (v : Nat)
  | UInt32 (v : Nat)
  | UInt64 (v : Nat)
  | Float32 (v : Nat)
  | Float64 (v : Nat)
  | Utf8 (v : String)
  | Binary (v : List Nat)
deriving DecidableEq

/-- An external materialized Arrow array (`ArrayRef`): a runtime type tag and
a sequence of nullable cells. `entries.length` is the array's `len()`. -/
structure ArrowArray where
  dataType : ArrowDataType
  entries : List (Option ArrowValue)
deriving DecidableEq

/-- Typed cell extraction used by `Column::get`'s per-type dispatch
(`arr.as_boolean().value(i)`, `arr.as_primitive::<..>().value(i)`, ...):
a downcast to a type disagreeing with the cell's payload is a panic
(`none`). -/
def scalarOfArrowValue : DataType → ArrowValue → Option Scalar
  | .Boolean, .Boolean v => some (.Boolean (some v))
  | .Int8, .Int8 v => some (.Int8 (some v))
  | .Int16, .Int16 v => some (.Int16 (some v))
  | .Int32, .Int32 v => some (.Int32 (some v))
  | .Int64, .Int64 v => some (.Int64 (some v))
  | .UInt8, .UInt8 v => some (.UInt8 (some v))
  | .UInt16, .UInt16 v => some (.UInt16 (some v))
  | .UInt32, .UInt32 v => some (.UInt32 (some v))
  | .UInt64, .UInt64 v => some (.UInt64 (some v))
  | .Float32, .Float32 v => some (.Float32 (some v))
  | .Float64, .Float64 v => some (.Float64 (some v))
  | .Utf8, .Utf8 v => some (.Utf8 (some v))
  | .Binary, .Binary v => some (.Binary (some v))
  | _, _ => none

/-- A column of data, either materialized as an Arrow array or a literal
value (`dtype/src/column.rs`, `enum Column`). -/
inductive Column where
  | array (arr : ArrowArray)
  | literal (value : Scalar) (len : Nat)
deriving DecidableEq

/-- Creates a new literal column (`Column::from_literal`). -/
def Column.from_literal (value : Scalar) (len : Nat) : Column :=
  .literal value len

/-- Validated constructor `impl TryFrom<ArrayRef> for Column`: checks the
array's type tag against the supported `DataType` set. -/
def Column.tryFromArray (arr : ArrowArray) : Except String Column :=
  match DataType.tryFromArrow arr.dataType with
  | .error e => .error e
  | .ok _ => .ok (.array arr)

/-- Returns the number of rows in this column (`Column::len`). -/
def Column.len : Column → Nat
  | .array arr => arr.entries.length
  | .literal _ len => len

/-- Returns true if this column has no rows (`Column::is_empty`). -/
def Column.isEmpty (c : Column) : Bool :=
  c.len == 0

/-- Returns the data type of this column (`Column::dtype`); `none` models the
panic on an unsupported Arrow type tag. -/
def Column.dtype : Column → Option DataType
  | .array arr =>
    match DataType.tryFromArrow arr.dataType with
    | .ok dt => some dt
    | .error _ => none
  | .literal value _ => some value.dtype

/-- Returns the value at the given index as a Scalar (`Column::get`);
`none` models the panic on an out-of-bounds index (for both variants) or
on an unsupported type tag. -/
def Column.get : Column → Nat → Option Scalar
  | .literal value len, i =>
    if i < len then some value else none
  | .array arr, i =>
    match arr.entries.get? i with
    | none => none
    | some none =>
      match Column.dtype (.array arr) with
      | none => none
      | some dt => some (Scalar.null dt)
    | some (some v) =>
      match Column.dtype (.array arr) with
      | none => none
      | some dt => scalarOfArrowValue dt v

/-- A field in a schema, consisting of a name and data type
(`dtype/src/field.rs`). -/
structure Field where
  name : String
  dtype : DataType
deriving DecidableEq

/-- A schema consisting of a list of fields (`dtype/src/schema.rs`). -/
structure Schema where
  fields : List Field
deriving DecidableEq

/-- Picks the elements of `l` at the given indices, in index-list order;
`none` models the panic of Rust's `l[i]` on an out-of-bounds index. This is
the shared shape of `Schema::project`'s field indexing and the in-memory
source's per-batch column reselection. -/
def pickList {α : Type} (l : List α) : List Nat → Option (List α)
  | [] => some []
  | i :: is =>
    match l.get? i with
    | none => none
    | some a =>
      match pickList l is with
      | none => none
      | some rest => some (a :: rest)

/-- Projects the schema to a subset of fields by index (`Schema::project`);
`none` models the panic on an out-of-bounds index. -/
def Schema.project (s : Schema) (indices : List Nat) : Option Schema :=
  match pickList s.fields indices with
  | none => none
  | some fs => some ⟨fs⟩

/-- First field with the given name (`self.fields.iter().find(|f| f.name() == *name)`
inside `Schema::select`). -/
def findField (name : String) : List Field → Option Field
  | [] => none
  | f :: fs => if f.name == name then some f else findField name fs

/-- Resolves each name to its first matching field, failing on the first
absent name (the body of `Schema::select`). -/
def selectFields (fields : List Field) : List String → Except String (List Field)
  | [] => .ok []
  | n :: ns =>
    match findField n fields with
    | none => .error ("field not found: " ++ n)
    | some f =>
      match selectFields fields ns with
      | .error e => .error e
      | .ok fs => .ok (f :: fs)

/-- Select fields by name (`Schema::select`). -/
def Schema.select (s : Schema) (names : List String) : Except String Schema :=
  match selectFields s.fields names with
  | .error e => .error e
  | .ok fs => .ok ⟨fs⟩

/-- A named field of an external Arrow schema (external collaborator type). -/
structure ArrowField where
  name : String
  dataType : ArrowDataType
deriving DecidableEq

/-- An external Arrow schema: an ordered list of Arrow fields
(external collaborator type). -/
structure ArrowSchema where
  fields : List ArrowField
deriving DecidableEq

/-- Modelled from the spec: `impl TryFrom<&ArrowSchema> for Schema`, used by
`CsvDataSource::schema`, `ParquetDataSource::schema` and
`RecordBatch::try_from` but not present in the crates' source files —
"converts the resulting external schema into the internal `Schema`, failing
if any inferred type falls outside the supported `DataType` set" (§4.1). -/
def Schema.tryFromArrow (s : ArrowSchema) : Except String Schema :=
  match go s.fields with
  | .error e => .error e
  | .ok fs => .ok ⟨fs⟩
where
  go : List ArrowField → Except String (List Field)
    | [] => .ok []
    | af :: afs =>
      match DataType.tryFromArrow af.dataType with
      | .error e => .error e
      | .ok dt =>
        match go afs with
        | .error e => .error e
        | .ok fs => .ok (⟨af.name, dt⟩ :: fs)

/-- A batch of columnar data with a schema (`dtype/src/record.rs`). -/
structure RecordBatch where
  schema : Schema
  columns : List Column
deriving DecidableEq

/-- Returns the column at the given index (`RecordBatch::field`); `none`
models the panic of `self.columns[i]` on an out-of-bounds index. -/
def RecordBatch.field (b : RecordBatch) (i : Nat) : Option Column :=
  b.columns.get? i

/-- Returns the number of rows in this batch (`RecordBatch::row_count`). -/
def RecordBatch.row_count (b : RecordBatch) : Nat :=
  match b.columns with
  | [] => 0
  | c :: _ => c.len

/-- Returns the number of columns in this batch (`RecordBatch::column_count`). -/
def RecordBatch.column_count (b : RecordBatch) : Nat :=
  b.columns.length

deriving instance DecidableEq for Except

/-- Index of the first field with the given name
(`self.schema.fields().iter().position(|f| f.name() == *name)`, the shared
projection-resolution step of the in-memory and text sources). -/
def findFieldIdx (name : String) : List Field → Option Nat
  | [] => none
  | f :: fs =>
    if f.name == name then some 0
    else
      match findFieldIdx name fs with
      | none => none
      | some i => some (i + 1)

/-- Resolves every projected name against a schema to an index, failing on
the first name with no matching field (`"column not found: {name}"`); the
shared fail-fast resolution of `InMemoryDataSource::scan` and
`CsvDataSource::scan`. -/
def resolveIndices (s : Schema) : List String → Except String (List Nat)
  | [] => .ok []
  | n :: ns =>
    match findFieldIdx n s.fields with
    | none => .error ("column not found: " ++ n)
    | some i =>
      match resolveIndices s ns with
      | .error e => .error e
      | .ok is => .ok (i :: is)

/-- A data source that stores data in memory (`dsource/src/memory.rs`). -/
structure InMemoryDataSource where
  schema : Schema
  batches : List RecordBatch
deriving DecidableEq

/-- The trait method `DataSource::schema` for the in-memory source: returns
the stored schema verbatim. -/
def InMemoryDataSource.schemaFn (src : InMemoryDataSource) : Except String Schema :=
  .ok src.schema

/-- Projection of each stored batch to the resolved column indices, with
the precomputed projected schema (the batch-mapping loop of
`InMemoryDataSource::scan`); `none` models the panic of `batch.field(i)` on
a batch with too few columns. -/
def projectBatches (ps : Schema) (is : List Nat) : List RecordBatch → Option (List RecordBatch)
  | [] => some []
  | b :: bs =>
    match pickList b.columns is with
    | none => none
    | some cs =>
      match projectBatches ps is bs with
      | none => none
      | some rest => some (⟨ps, cs⟩ :: rest)

/-- The trait method `DataSource::scan` for the in-memory source. The
returned iterator is the finite list of its items, each wrapped `Ok`
(`batches.into_iter().map(Ok)`); the outer `Option` models a panic inside
the eager projection loop. -/
def InMemoryDataSource.scan (src : InMemoryDataSource) (projection : Option (List String)) :
    Option (Except String (List (Except String RecordBatch))) :=
  match projection with
  | none => some (.ok (src.batches.map Except.ok))
  | some cols =>
    match resolveIndices src.schema cols with
    | .error e => some (.error e)
    | .ok indices =>
      match src.schema.project indices with
      | none => none
      | some projectedSchema =>
        match projectBatches projectedSchema indices src.batches with
        | none => none
        | some pbs => some (.ok (pbs.map Except.ok))

/-- Projection of one externally-decoded batch to an index list: the batch's
schema and columns restricted to (and ordered by) the indices; `none` models
an index outside the batch's shape. -/
def projectBatch (is : List Nat) (b : RecordBatch) : Option RecordBatch :=
  match pickList b.schema.fields is with
  | none => none
  | some fs =>
    match pickList b.columns is with
    | none => none
    | some cs => some ⟨⟨fs⟩, cs⟩

/-- Projection applied across a reader's item stream: decode-error items
pass through unchanged, each successfully decoded batch is projected. -/
def projectItems (is : List Nat) : List (Except String RecordBatch) → Option (List (Except String RecordBatch))
  | [] => some []
  | .error e :: rest =>
    match projectItems is rest with
    | none => none
    | some out => some (.error e :: out)
  | .ok b :: rest =>
    match projectBatch is b with
    | none => none
    | some pb =>
      match projectItems is rest with
      | none => none
      | some out => some (.ok pb :: out)

/-- Modelled from the spec: the external text-decoding collaborator's batch
reader (§6), as driven by `CsvBatchIterator` — "a batch-reader construction
taking a typed schema, header-presence flag, batch-size, and optional
index-based projection, then exposing a pull-one-batch operation". Given the
item stream the reader produces without projection, an index-based
projection restricts every decoded batch to the listed columns in the
caller-listed index order. -/
def csvReaderBatches (fileBatches : List (Except String RecordBatch)) :
    Option (List Nat) → Option (List (Except String RecordBatch))
  | none => some fileBatches
  | some is => projectItems is fileBatches

/-- A data source that reads from CSV files (`dsource/src/csv.rs`). The
file-system and external-decoder interactions on the wrapped path are
abstracted as fixed outcomes for one unchanged underlying file:
`inferArrow` is the result of opening the file and running the external
schema inference, `openResult` the result of `File::open` in `scan`,
`buildResult` the result of `builder.build(file)`, and `fileBatches` the
item stream the external reader yields without projection. -/
structure CsvDataSource where
  schema : Option Schema
  batch_size : Nat
  inferArrow : Except String ArrowSchema
  openResult : Except String Unit
  buildResult : Except String Unit
  fileBatches : List (Except String RecordBatch)
deriving DecidableEq

/-- The trait method `DataSource::schema` for the CSV source: the
caller-supplied schema if one was given, otherwise the external inference's
Arrow schema converted to the internal `Schema`. -/
def CsvDataSource.schemaFn (src : CsvDataSource) : Except String Schema :=
  match src.schema with
  | some s => .ok s
  | none =>
    match src.inferArrow with
    | .error e => .error e
    | .ok arrowSchema => Schema.tryFromArrow arrowSchema

/-- The trait method `DataSource::scan` for the CSV source: resolve the
schema, open the file, resolve any projection fail-fast against that schema,
build the reader, and return its item stream. -/
def CsvDataSource.scan (src : CsvDataSource) (projection : Option (List String)) :
    Option (Except String (List (Except String RecordBatch))) :=
  match src.schemaFn with
  | .error e => some (.error e)
  | .ok schema =>
    match src.openResult with
    | .error e => some (.error e)
    | .ok _ =>
      let resolved : Except String (Option (List Nat)) :=
        match projection with
        | none => .ok none
        | some cols =>
          match resolveIndices schema cols with
          | .error e => .error e
          | .ok is => .ok (some is)
      match resolved with
      | .error e => some (.error e)
      | .ok sel =>
        match src.buildResult with
        | .error e => some (.error e)
        | .ok _ =>
          match csvReaderBatches src.fileBatches sel with
          | none => none
          | some items => some (.ok items)

/-- Indices (counting from `k`) of the list entries satisfying `p`: the
shape of `ParquetDataSource::scan`'s boolean mask followed by
`filter_map(|(i, &b)| if b { Some(i) } else { None })` over its enumeration. -/
def filterIdxs {α : Type} (p : α → Bool) : List α → Nat → List Nat
  | [], _ => []
  | a :: l, k =>
    if p a then k :: filterIdxs p l (k + 1)
    else filterIdxs p l (k + 1)

/-- The leaf-column selection `ParquetDataSource::scan` hands to the external
reader: the positions of the Arrow schema fields whose name occurs in the
caller's projection list (`cols.contains(&f.name().as_str())`). -/
def maskIdxs (cols : List String) (s : ArrowSchema) : List Nat :=
  filterIdxs (fun f => cols.contains f.name) s.fields 0

/-- Modelled from the spec: the structured-file collaborator's reader (§6) —
"a projection mechanism expressed as a column mask over physical leaves; a
batch-size-bounded pull-one-batch reader". Given the item stream the reader
yields without projection, a mask restricts every decoded batch to the
selected leaf columns, preserving the file's column order (a mask carries no
order information). -/
def parquetReaderBatches (fileBatches : List (Except String RecordBatch)) :
    Option (List Nat) → Option (List (Except String RecordBatch))
  | none => some fileBatches
  | some is => projectItems is fileBatches

/-- A data source that reads from Parquet files (`dsource/src/parquet.rs`).
File-system and external-reader interactions on the wrapped path are
abstracted as fixed outcomes for one unchanged underlying file:
`openResult` is the result of `File::open` plus
`ParquetRecordBatchReaderBuilder::try_new`, `arrowSchema` the file's
embedded Arrow schema (`builder.schema()`), `buildResult` the result of
`builder.build()`, and `fileBatches` the item stream the reader yields
without projection. -/
structure ParquetDataSource where
  batch_size : Nat
  openResult : Except String Unit
  arrowSchema : ArrowSchema
  buildResult : Except String Unit
  fileBatches : List (Except String RecordBatch)
deriving DecidableEq

/-- The trait method `DataSource::schema` for the Parquet source: open the
file and convert its embedded Arrow schema to the internal `Schema`. -/
def ParquetDataSource.schemaFn (src : ParquetDataSource) : Except String Schema :=
  match src.openResult with
  | .error e => .error e
  | .ok _ => Schema.tryFromArrow src.arrowSchema

/-- The trait method `DataSource::scan` for the Parquet source: open the
file, translate any projection into the silent boolean mask over the
file's Arrow schema, build the reader, and return its item stream. -/
def ParquetDataSource.scan (src : ParquetDataSource) (projection : Option (List String)) :
    Option (Except String (List (Except String RecordBatch))) :=
  match src.openResult with
  | .error e => some (.error e)
  | .ok _ =>
    let sel : Option (List Nat) :=
      match projection with
      | none => none
      | some cols => some (maskIdxs cols src.arrowSchema)
    match src.buildResult with
    | .error e => some (.error e)
    | .ok _ =>
      match parquetReaderBatches src.fileBatches sel with
      | none => none
      | some items => some (.ok items)

/-- Conformance of a reader item to a resolved schema: a decoded batch
carries the schema's field names in order and one column per field. The
external readers guarantee this for the schema they were built with. -/
def conformsTo (s : Schema) : Except String RecordBatch → Bool
  | .error _ => true
  | .ok b =>
    (b.schema.fields.map Field.name == s.fields.map Field.name) &&
    (b.columns.length == s.fields.length)

/-- Conformance of a reader item to the file's Arrow schema: a decoded batch
carries the Arrow field names in order and one column per Arrow field. -/
def conformsToArrow (s : ArrowSchema) : Except String RecordBatch → Bool
  | .error _ => true
  | .ok b =>
    (b.schema.fields.map Field.name == s.fields.map ArrowField.name) &&
    (b.columns.length == s.fields.length)

/-! Generic lemmas about the list helpers. -/

theorem get?_append_length {α : Type} (pre : List α) (a : α) (t : List α) :
    (pre ++ a :: t).get? pre.length = some a := by
  induction pre with
  | nil => rfl
  | cons x pre ih => simpa using ih

theorem pickList_ok {α : Type} (l : List α) (is : List Nat)
    (h : ∀ i ∈ is, i < l.length) :
    ∃ out, pickList l is = some out ∧ out.length = is.length := by
  induction is with
  | nil => exact ⟨[], rfl, rfl⟩
  | cons i is ih =>
    have hi : i < l.length := h i (List.mem_cons_self i is)
    obtain ⟨out, hout, hlen⟩ := ih (fun j hj => h j (List.mem_cons_of_mem _ hj))
    refine ⟨l[i] :: out, ?_, by simp [hlen]⟩
    simp [pickList, List.getElem?_eq_getElem hi, hout]

theorem pickList_spec {α : Type} {l : List α} :
    ∀ {is : List Nat} {out : List α}, pickList l is = some out →
      out.length = is.length ∧
      ∀ k i, is.get? k = some i → ∃ a, l.get? i = some a ∧ out.get? k = some a := by
  intro is
  induction is with
  | nil =>
    intro out h
    simp only [pickList] at h
    cases h
    exact ⟨rfl, by intro k i h; simp at h⟩
  | cons i is ih =>
    intro out h
    simp only [pickList] at h
    cases hga : l.get? i with
    | none => rw [hga] at h; cases h
    | some a =>
      rw [hga] at h
      cases hrest : pickList l is with
      | none => rw [hrest] at h; cases h
      | some rest =>
        rw [hrest] at h
        cases h
        obtain ⟨hlen, hpt⟩ := ih hrest
        refine ⟨by simp [hlen], ?_⟩
        intro k j hk
        cases k with
        | zero => cases hk; exact ⟨a, hga, rfl⟩
        | succ k => exact hpt k j hk

theorem pickList_map {α β : Type} (g : α → β) (l : List α) :
    ∀ is : List Nat, pickList (l.map g) is = (pickList l is).map (List.map g) := by
  intro is
  induction is with
  | nil => rfl
  | cons i is ih =>
    cases hga : l[i]? with
    | none => simp [pickList, List.getElem?_map, hga]
    | some a =>
      cases hrest : pickList l is with
      | none => simp [pickList, List.getElem?_map, hga, hrest, ih]
      | some rest => simp [pickList, List.getElem?_map, hga, hrest, ih]

theorem filterIdxs_mem {α : Type} (p : α → Bool) :
    ∀ (l : List α) (k j : Nat), j ∈ filterIdxs p l k → k ≤ j ∧ j < k + l.length := by
  intro l
  induction l with
  | nil => intro k j h; simp [filterIdxs] at h
  | cons a t ih =>
    intro k j h
    simp only [filterIdxs] at h
    by_cases hpa : p a
    · rw [if_pos hpa] at h
      rcases List.mem_cons.mp h with h | h
      · subst h; simp
      · have := ih (k + 1) j h
        constructor <;> [omega; (simp only [List.length_cons]; omega)]
    · rw [if_neg hpa] at h
      have := ih (k + 1) j h
      constructor <;> [omega; (simp only [List.length_cons]; omega)]

theorem filterIdxs_length {α : Type} (p : α → Bool) :
    ∀ (l : List α) (k : Nat), (filterIdxs p l k).length = (l.filter p).length := by
  intro l
  induction l with
  | nil => intro k; rfl
  | cons a t ih =>
    intro k
    by_cases hpa : p a <;> simp [filterIdxs, List.filter_cons, hpa, ih]

theorem pickList_filterIdxs {α : Type} (p : α → Bool) :
    ∀ (l pre : List α), pickList (pre ++ l) (filterIdxs p l pre.length) = some (l.filter p) := by
  intro l
  induction l with
  | nil => intro pre; simp [filterIdxs, pickList]
  | cons a t ih =>
    intro pre
    have hassoc : pre ++ a :: t = (pre ++ [a]) ++ t := by simp
    have hlen : (pre ++ [a]).length = pre.length + 1 := by simp
    have h2 : pickList (pre ++ a :: t) (filterIdxs p t (pre.length + 1)) = some (t.filter p) := by
      rw [hassoc, ← hlen]; exact ih (pre ++ [a])
    by_cases hpa : p a
    · simp only [filterIdxs, if_pos hpa, pickList, get?_append_length, h2,
        List.filter_cons, hpa]
      simp
    · simp only [filterIdxs, if_neg hpa, List.filter_cons, hpa]
      simpa using h2

theorem filterIdxs_comp {α β : Type} (g : α → β) (q : β → Bool) :
    ∀ (l : List α) (k : Nat), filterIdxs (fun a => q (g a)) l k = filterIdxs q (l.map g) k := by
  intro l
  induction l with
  | nil => intro k; rfl
  | cons a t ih => intro k; by_cases h : q (g a) <;> simp [filterIdxs, h, ih]

/-! Lemmas about name lookup and projection resolution. -/

theorem findFieldIdx_some {n : String} :
    ∀ {fields : List Field} {i : Nat}, findFieldIdx n fields = some i →
      ∃ f, fields.get? i = some f ∧ f.name = n := by
  intro fields
  induction fields with
  | nil => intro i h; simp [findFieldIdx] at h
  | cons f fs ih =>
    intro i h
    simp only [findFieldIdx] at h
    cases hf : f.name == n with
    | true =>
      rw [if_pos hf] at h
      cases h
      exact ⟨f, rfl, by simpa using hf⟩
    | false =>
      rw [if_neg (by simp [hf])] at h
      cases hrec : findFieldIdx n fs with
      | none => rw [hrec] at h; cases h
      | some j =>
        rw [hrec] at h
        cases h
        obtain ⟨g, hg, hgn⟩ := ih hrec
        exact ⟨g, hg, hgn⟩

theorem findFieldIdx_of_mem {n : String} :
    ∀ {fields : List Field}, (∃ f ∈ fields, f.name = n) →
      ∃ i, findFieldIdx n fields = some i := by
  intro fields
  induction fields with
  | nil => intro h; simp at h
  | cons f fs ih =>
    intro h
    cases hf : f.name == n with
    | true => exact ⟨0, by simp [findFieldIdx, hf]⟩
    | false =>
      obtain ⟨g, hg, hgn⟩ := h
      rcases List.mem_cons.mp hg with hg | hg
      · subst hg; simp [hgn] at hf
      · obtain ⟨i, hi⟩ := ih ⟨g, hg, hgn⟩
        exact ⟨i + 1, by simp [findFieldIdx, hf, hi]⟩

theorem findFieldIdx_none {n : String} :
    ∀ {fields : List Field}, (∀ f ∈ fields, f.name ≠ n) →
      findFieldIdx n fields = none := by
  intro fields
  induction fields with
  | nil => intro _; rfl
  | cons f fs ih =>
    intro h
    have hf : (f.name == n) = false := by
      simp [h f (List.mem_cons_self f fs)]
    have hrec := ih (fun g hg => h g (List.mem_cons_of_mem _ hg))
    simp [findFieldIdx, hf, hrec]

theorem resolveIndices_spec {s : Schema} :
    ∀ {cols : List String} {is : List Nat}, resolveIndices s cols = .ok is →
      ∃ fs, pickList s.fields is = some fs ∧ fs.map Field.name = cols := by
  intro cols
  induction cols with
  | nil =>
    intro is h
    simp only [resolveIndices] at h
    cases h
    exact ⟨[], rfl, rfl⟩
  | cons n ns ih =>
    intro is h
    simp only [resolveIndices] at h
    cases hfi : findFieldIdx n s.fields with
    | none => rw [hfi] at h; cases h
    | some i =>
      rw [hfi] at h
      cases hrec : resolveIndices s ns with
      | error e => rw [hrec] at h; cases h
      | ok is' =>
        rw [hrec] at h
        cases h
        obtain ⟨f, hf, hfn⟩ := findFieldIdx_some hfi
        obtain ⟨fs, hfs, hmap⟩ := ih hrec
        refine ⟨f :: fs, ?_, by simp [hmap, hfn]⟩
        simp only [pickList, hf, hfs]

theorem resolveIndices_bound {s : Schema} :
    ∀ {cols : List String} {is : List Nat}, resolveIndices s cols = .ok is →
      ∀ i ∈ is, i < s.fields.length := by
  intro cols
  induction cols with
  | nil =>
    intro is h
    simp only [resolveIndices] at h
    cases h
    intro i hi
    simp at hi
  | cons n ns ih =>
    intro is h
    simp only [resolveIndices] at h
    cases hfi : findFieldIdx n s.fields with
    | none => rw [hfi] at h; cases h
    | some i =>
      rw [hfi] at h
      cases hrec : resolveIndices s ns with
      | error e => rw [hrec] at h; cases h
      | ok is' =>
        rw [hrec] at h
        cases h
        intro j hj
        rcases List.mem_cons.mp hj with hj | hj
        · subst hj
          obtain ⟨f, hf, _⟩ := findFieldIdx_some hfi
          exact (List.get?_eq_some.mp hf).1
        · exact ih hrec j hj

theorem resolveIndices_ok_of_present {s : Schema} :
    ∀ {cols : List String}, (∀ n ∈ cols, ∃ f ∈ s.fields, f.name = n) →
      ∃ is, resolveIndices s cols = .ok is := by
  intro cols
  induction cols with
  | nil => intro _; exact ⟨[], rfl⟩
  | cons n ns ih =>
    intro h
    obtain ⟨i, hi⟩ := findFieldIdx_of_mem (h n (List.mem_cons_self n ns))
    obtain ⟨is, his⟩ := ih (fun m hm => h m (List.mem_cons_of_mem _ hm))
    exact ⟨i :: is, by simp only [resolveIndices, hi, his]⟩

theorem resolveIndices_error_of_absent {s : Schema} {n : String} :
    ∀ {cols : List String}, n ∈ cols → (∀ f ∈ s.fields, f.name ≠ n) →
      ∃ e, resolveIndices s cols = .error e := by
  intro cols
  induction cols with
  | nil => intro h; simp at h
  | cons m ms ih =>
    intro hmem habs
    simp only [resolveIndices]
    cases hfi : findFieldIdx m s.fields with
    | none => exact ⟨"column not found: " ++ m, rfl⟩
    | some i =>
      have hne : m ≠ n := by
        intro he
        subst he
        rw [findFieldIdx_none habs] at hfi
        cases hfi
      have hmem' : n ∈ ms := by
        rcases List.mem_cons.mp hmem with h | h
        · exact absurd h.symm hne
        · exact h
      obtain ⟨e, he⟩ := ih hmem' habs
      rw [he]
      exact ⟨e, rfl⟩

/-! Lemmas about batch and item-stream projection. -/

theorem projectBatches_spec (ps : Schema) (is : List Nat) :
    ∀ bs : List RecordBatch, (∀ b ∈ bs, ∀ i ∈ is, i < b.columns.length) →
      ∃ pbs, projectBatches ps is bs = some pbs ∧ pbs.length = bs.length ∧
        ∀ k ob, bs.get? k = some ob →
          ∃ cs, pickList ob.columns is = some cs ∧ pbs.get? k = some ⟨ps, cs⟩ := by
  intro bs
  induction bs with
  | nil =>
    intro _
    exact ⟨[], rfl, rfl, by intro k ob h; simp at h⟩
  | cons b bs ih =>
    intro h
    obtain ⟨cs, hcs, _⟩ := pickList_ok b.columns is (h b (List.mem_cons_self b bs))
    obtain ⟨pbs, hpbs, hlen, hpt⟩ := ih (fun b' hb' => h b' (List.mem_cons_of_mem _ hb'))
    refine ⟨⟨ps, cs⟩ :: pbs, ?_, by simp [hlen], ?_⟩
    · simp only [projectBatches, hcs, hpbs]
    · intro k ob hk
      cases k with
      | zero => cases hk; exact ⟨cs, hcs, rfl⟩
      | succ k => exact hpt k ob hk

theorem projectItems_spec (is : List Nat) :
    ∀ items : List (Except String RecordBatch),
      (∀ x ∈ items, ∀ b, x = .ok b → ∀ i ∈ is, i < b.schema.fields.length ∧ i < b.columns.length) →
      ∃ out, projectItems is items = some out ∧ out.length = items.length ∧
        ∀ k, (∀ e, items.get? k = some (.error e) → out.get? k = some (.error e)) ∧
          (∀ b, items.get? k = some (.ok b) →
            ∃ fs cs, pickList b.schema.fields is = some fs ∧ pickList b.columns is = some cs ∧
              out.get? k = some (.ok ⟨⟨fs⟩, cs⟩)) := by
  intro items
  induction items with
  | nil =>
    intro _
    refine ⟨[], rfl, rfl, ?_⟩
    intro k
    constructor
    · intro e h; simp at h
    · intro b h; simp at h
  | cons x rest ih =>
    intro h
    obtain ⟨out, hout, hlen, hpt⟩ := ih (fun y hy => h y (List.mem_cons_of_mem _ hy))
    cases x with
    | error e =>
      refine ⟨.error e :: out, ?_, by simp [hlen], ?_⟩
      · simp only [projectItems, hout]
      · intro k
        cases k with
        | zero =>
          constructor
          · intro e' h'; cases h'; rfl
          · intro b h'; cases h'
        | succ k => exact hpt k
    | ok b =>
      have hb := h (.ok b) (List.mem_cons_self _ _) b rfl
      obtain ⟨fs, hfs, _⟩ := pickList_ok b.schema.fields is (fun i hi => (hb i hi).1)
      obtain ⟨cs, hcs, _⟩ := pickList_ok b.columns is (fun i hi => (hb i hi).2)
      refine ⟨.ok ⟨⟨fs⟩, cs⟩ :: out, ?_, by simp [hlen], ?_⟩
      · simp only [projectItems, projectBatch, hfs, hcs, hout]
      · intro k
        cases k with
        | zero =>
          constructor
          · intro e' h'; cases h'
          · intro b' h'; cases h'; exact ⟨fs, cs, hfs, hcs, rfl⟩
        | succ k => exact hpt k

/-! Lemmas about `Schema::select`'s first-match lookup. -/

theorem findField_some {n : String} :
    ∀ {fields : List Field} {f : Field}, findField n fields = some f →
      ∃ i, fields.get? i = some f ∧ f.name = n ∧
        ∀ j, j < i → ∀ g, fields.get? j = some g → g.name ≠ n := by
  intro fields
  induction fields with
  | nil => intro f h; simp [findField] at h
  | cons g gs ih =>
    intro f h
    simp only [findField] at h
    cases hg : g.name == n with
    | true =>
      rw [if_pos (by simp [hg])] at h
      cases h
      refine ⟨0, rfl, by simpa using hg, ?_⟩
      intro j hj
      omega
    | false =>
      rw [if_neg (by simp [hg])] at h
      obtain ⟨i, hi, hfn, hfirst⟩ := ih h
      refine ⟨i + 1, hi, hfn, ?_⟩
      intro j hj g' hg'
      cases j with
      | zero =>
        cases hg'
        simpa using hg
      | succ j => exact hfirst j (by omega) g' hg'

theorem findField_none {n : String} :
    ∀ {fields : List Field}, (∀ f ∈ fields, f.name ≠ n) →
      findField n fields = none := by
  intro fields
  induction fields with
  | nil => intro _; rfl
  | cons f fs ih =>
    intro h
    have hf : (f.name == n) = false := by
      simp [h f (List.mem_cons_self f fs)]
    have hrec := ih (fun g hg => h g (List.mem_cons_of_mem _ hg))
    simp [findField, hf, hrec]

theorem selectFields_ok_spec {fields : List Field} :
    ∀ {names : List String} {fs : List Field}, selectFields fields names = .ok fs →
      fs.length = names.length ∧
      ∀ k n, names.get? k = some n →
        ∃ f, fs.get? k = some f ∧ findField n fields = some f := by
  intro names
  induction names with
  | nil =>
    intro fs h
    simp only [selectFields] at h
    cases h
    exact ⟨rfl, by intro k n h; simp at h⟩
  | cons n ns ih =>
    intro fs h
    simp only [selectFields] at h
    cases hff : findField n fields with
    | none => rw [hff] at h; cases h
    | some f =>
      rw [hff] at h
      cases hrec : selectFields fields ns with
      | error e => rw [hrec] at h; cases h
      | ok fs' =>
        rw [hrec] at h
        cases h
        obtain ⟨hlen, hpt⟩ := ih hrec
        refine ⟨by simp [hlen], ?_⟩
        intro k m hk
        cases k with
        | zero => cases hk; exact ⟨f, rfl, hff⟩
        | succ k => exact hpt k m hk

theorem findField_absent {n : String} :
    ∀ {fields : List Field}, findField n fields = none →
      ∀ f ∈ fields, f.name ≠ n := by
  intro fields
  induction fields with
  | nil => intro _ f hf; simp at hf
  | cons g gs ih =>
    intro h f hf
    simp only [findField] at h
    cases hg : g.name == n with
    | true => rw [if_pos (by simp [hg])] at h; cases h
    | false =>
      rw [if_neg (by simp [hg])] at h
      rcases List.mem_cons.mp hf with hf | hf
      · subst hf; simpa using hg
      · exact ih h f hf

theorem selectFields_error_of_absent {fields : List Field} {n : String} :
    ∀ {names : List String}, n ∈ names → (∀ f ∈ fields, f.name ≠ n) →
      ∃ m, m ∈ names ∧ (∀ f ∈ fields, f.name ≠ m) ∧
        selectFields fields names = .error ("field not found: " ++ m) := by
  intro names
  induction names with
  | nil => intro h; simp at h
  | cons m ms ih =>
    intro hmem habs
    simp only [selectFields]
    cases hff : findField m fields with
    | none => exact ⟨m, List.mem_cons_self m ms, findField_absent hff, rfl⟩
    | some f =>
      have hne : m ≠ n := by
        intro he
        subst he
        rw [findField_none habs] at hff
        cases hff
      have hmem' : n ∈ ms := by
        rcases List.mem_cons.mp hmem with h | h
        · exact absurd h.symm hne
        · exact h
      obtain ⟨m', hm', habs', he'⟩ := ih hmem' habs
      rw [he']
      exact ⟨m', List.mem_cons_of_mem _ hm', habs', rfl⟩

/-! Claim theorems. -/

/-- C4: `Column::get(i)` requires `i < len()` and aborts (modelled `none`)
when `i ≥ len()`; a `Literal` column's `len()` equals the constructor's `len`
argument regardless of the wrapped scalar; its `get(i)` for any `i < len`
returns a Scalar structurally equal to the original; and an `Array` column
whose entry at an in-bounds index `i` is null yields the null `Scalar` of the
column's dtype. -/
theorem column_get_contract :
    (∀ (c : Column) (i : Nat), c.len ≤ i → c.get i = none) ∧
    (∀ (v : Scalar) (n : Nat), (Column.from_literal v n).len = n) ∧
    (∀ (v : Scalar) (n i : Nat), i < n → (Column.from_literal v n).get i = some v) ∧
    (∀ (arr : ArrowArray) (i : Nat) (dt : DataType),
      arr.entries.get? i = some none → (Column.array arr).dtype = some dt →
      (Column.array arr).get i = some (Scalar.null dt)) := by
  refine ⟨?_, fun v n => rfl, ?_, ?_⟩
  · intro c i h
    cases c with
    | literal v len =>
      simp only [Column.len] at h
      simp [Column.get, Nat.not_lt.mpr h]
    | array arr =>
      simp only [Column.len] at h
      have : arr.entries[i]? = none := List.getElem?_eq_none h
      simp [Column.get, this]
  · intro v n i h
    simp [Column.from_literal, Column.get, h]
  · intro arr i dt h1 h2
    simp only [Column.get, h1, h2]

/-- C4 witness: the contract evaluated on a 3-row Int64 literal column and a
single-entry all-null Int64 array column. -/
theorem column_get_contract_witness :
    (Column.from_literal (.Int64 (some 7)) 3).len = 3 ∧
    (Column.from_literal (.Int64 (some 7)) 3).get 2 = some (.Int64 (some 7)) ∧
    (Column.from_literal (.Int64 (some 7)) 3).get 3 = none ∧
    (Column.array ⟨.Int64, [none]⟩).get 0 = some (Scalar.null .Int64) :=
  ⟨column_get_contract.2.1 _ _,
   column_get_contract.2.2.1 _ _ _ (by decide),
   column_get_contract.1 _ _ (by decide),
   column_get_contract.2.2.2 ⟨.Int64, [none]⟩ 0 .Int64 (by decide) (by decide)⟩

/-- C5: every column built through the validated constructors — the
`TryFrom<ArrayRef>` check against the supported `DataType` set, or
`from_literal` — has a panic-free `dtype()` (the modelled panic `none` is
unreachable). -/
theorem column_dtype_panic_free :
    (∀ (arr : ArrowArray) (c : Column),
      Column.tryFromArray arr = .ok c → (Column.dtype c).isSome) ∧
    (∀ (v : Scalar) (n : Nat),
      Column.dtype (Column.from_literal v n) = some v.dtype) := by
  refine ⟨?_, fun v n => rfl⟩
  intro arr c h
  simp only [Column.tryFromArray] at h
  cases heq : DataType.tryFromArrow arr.dataType with
  | error e => rw [heq] at h; cases h
  | ok dt =>
    rw [heq] at h
    cases h
    simp [Column.dtype, heq]

/-- C5 witness: the validated constructors evaluated on a concrete Int64
array and an Utf8 literal. -/
theorem column_dtype_panic_free_witness :
    (Column.dtype (Column.array ⟨.Int64, [some (.Int64 5)]⟩)).isSome ∧
    Column.dtype (Column.from_literal (.Utf8 (some "x")) 2) = some .Utf8 :=
  ⟨column_dtype_panic_free.1 ⟨.Int64, [some (.Int64 5)]⟩ _ (by decide),
   column_dtype_panic_free.2 _ _⟩

/-- C6: the `DataType`/Arrow type-tag mapping is a bijection on the supported
subset — round-trip yields `Ok` of the original, distinct `DataType`s map to
distinct tags, and any tag outside the image converts back as a recoverable
error. -/
theorem dtype_arrow_bijection :
    (∀ dt : DataType, DataType.tryFromArrow dt.toArrow = .ok dt) ∧
    (∀ a b : DataType, a.toArrow = b.toArrow → a = b) ∧
    (∀ t : ArrowDataType, (∀ dt : DataType, dt.toArrow ≠ t) →
      ∃ e, DataType.tryFromArrow t = .error e) := by
  refine ⟨by decide, by decide, ?_⟩
  intro t h
  cases t <;>
    first
      | exact ⟨_, rfl⟩
      | exact absurd rfl (h .Boolean)
      | exact absurd rfl (h .Int8)
      | exact absurd rfl (h .Int16)
      | exact absurd rfl (h .Int32)
      | exact absurd rfl (h .Int64)
      | exact absurd rfl (h .UInt8)
      | exact absurd rfl (h .UInt16)
      | exact absurd rfl (h .UInt32)
      | exact absurd rfl (h .UInt64)
      | exact absurd rfl (h .Float32)
      | exact absurd rfl (h .Float64)
      | exact absurd rfl (h .Utf8)
      | exact absurd rfl (h .Binary)

/-- C6 witness: the unsupported tag `Null` converts back as a recoverable
error. -/
theorem dtype_arrow_bijection_witness :
    ∃ e, DataType.tryFromArrow .Null = .error e :=
  dtype_arrow_bijection.2.2 .Null (by decide)

/-- C7: `Schema::select(names)` returns fields in the exact order of `names`,
resolving each name to the first field with that name (later duplicate-named
fields are shadowed), fails with a "field not found" error when any name is
absent, and is deterministic. -/
theorem schema_select_spec :
    (∀ (s : Schema) (names : List String) (s' : Schema),
      Schema.select s names = .ok s' →
      s'.fields.length = names.length ∧
      ∀ k n, names.get? k = some n →
        ∃ f i, s'.fields.get? k = some f ∧ s.fields.get? i = some f ∧ f.name = n ∧
          ∀ j, j < i → ∀ g, s.fields.get? j = some g → g.name ≠ n) ∧
    (∀ (s : Schema) (names : List String) (n : String),
      n ∈ names → (∀ f ∈ s.fields, f.name ≠ n) →
      ∃ m, m ∈ names ∧ Schema.select s names = .error ("field not found: " ++ m)) ∧
    (∀ (s : Schema) (names : List String), Schema.select s names = Schema.select s names) := by
  refine ⟨?_, ?_, fun s names => rfl⟩
  · intro s names s' h
    simp only [Schema.select] at h
    cases hsf : selectFields s.fields names with
    | error e => rw [hsf] at h; cases h
    | ok fs =>
      rw [hsf] at h
      cases h
      obtain ⟨hlen, hpt⟩ := selectFields_ok_spec hsf
      refine ⟨hlen, ?_⟩
      intro k n hk
      obtain ⟨f, hf, hff⟩ := hpt k n hk
      obtain ⟨i, hi, hfn, hfirst⟩ := findField_some hff
      exact ⟨f, i, hf, hi, hfn, hfirst⟩
  · intro s names n hmem habs
    obtain ⟨m, hm, _, he⟩ := selectFields_error_of_absent hmem habs
    exact ⟨m, hm, by simp only [Schema.select, he]⟩

/-- C7 witness: the select contract evaluated on a schema with a shadowing
duplicate of field `a`, selecting in an order away from schema order, and on
an absent name. -/
theorem schema_select_spec_witness :
    ((⟨[⟨"b", .Utf8⟩, ⟨"a", .Int32⟩]⟩ : Schema).fields.length =
      (["b", "a"] : List String).length) ∧
    (∃ m, m ∈ ["ghost"] ∧
      (Schema.mk [⟨"a", .Int32⟩]).select ["ghost"] = .error ("field not found: " ++ m)) :=
  ⟨(schema_select_spec.1 ⟨[⟨"a", .Int32⟩, ⟨"b", .Utf8⟩, ⟨"a", .Float64⟩]⟩ ["b", "a"]
      ⟨[⟨"b", .Utf8⟩, ⟨"a", .Int32⟩]⟩ (by decide)).1,
   schema_select_spec.2.1 ⟨[⟨"a", .Int32⟩]⟩ ["ghost"] "ghost" (by decide) (by decide)⟩

/-- C8: whenever `Schema::project(indices)` returns, the field at each output
position `k` has the same name as the original schema's field at position
`indices[k]`, for any index sequence including repeats and reorderings. -/
theorem schema_project_names :
    ∀ (s : Schema) (indices : List Nat) (s' : Schema),
      Schema.project s indices = some s' →
      s'.fields.length = indices.length ∧
      ∀ k i, indices.get? k = some i →
        ∃ f f', s.fields.get? i = some f ∧ s'.fields.get? k = some f' ∧
          f'.name = f.name := by
  intro s indices s' h
  simp only [Schema.project] at h
  cases hpk : pickList s.fields indices with
  | none => rw [hpk] at h; cases h
  | some fs =>
    rw [hpk] at h
    cases h
    obtain ⟨hlen, hpt⟩ := pickList_spec hpk
    refine ⟨hlen, ?_⟩
    intro k i hk
    obtain ⟨f, hf, hout⟩ := hpt k i hk
    exact ⟨f, f, hf, hout, rfl⟩

/-- C8 witness: projection by the repeating, reordering index sequence
`[2, 0, 2]` on a three-field schema. -/
theorem schema_project_names_witness :
    (Schema.mk [⟨"a", .Int32⟩, ⟨"b", .Utf8⟩, ⟨"c", .Float64⟩]).project [2, 0, 2] =
      some ⟨[⟨"c", .Float64⟩, ⟨"a", .Int32⟩, ⟨"c", .Float64⟩]⟩ ∧
    (⟨[⟨"c", .Float64⟩, ⟨"a", .Int32⟩, ⟨"c", .Float64⟩]⟩ : Schema).fields.length =
      ([2, 0, 2] : List Nat).length :=
  ⟨by decide,
   (schema_project_names ⟨[⟨"a", .Int32⟩, ⟨"b", .Utf8⟩, ⟨"c", .Float64⟩]⟩ [2, 0, 2] _
      (by decide)).1⟩

/-- C9: for every data source, `schema()` is deterministic over the same
unchanged underlying data (modelled as the fixed file-interaction outcomes):
two calls on the same source value return equal results. -/
theorem schema_idempotent :
    (∀ (src : InMemoryDataSource) (r₁ r₂ : Except String Schema),
      src.schemaFn = r₁ → src.schemaFn = r₂ → r₁ = r₂) ∧
    (∀ (src : CsvDataSource) (r₁ r₂ : Except String Schema),
      src.schemaFn = r₁ → src.schemaFn = r₂ → r₁ = r₂) ∧
    (∀ (src : ParquetDataSource) (r₁ r₂ : Except String Schema),
      src.schemaFn = r₁ → src.schemaFn = r₂ → r₁ = r₂) :=
  ⟨fun _ _ _ h₁ h₂ => h₁.symm.trans h₂,
   fun _ _ _ h₁ h₂ => h₁.symm.trans h₂,
   fun _ _ _ h₁ h₂ => h₁.symm.trans h₂⟩

/-- C9 witness: repeated `schema()` calls on a concrete source of each kind
agree. -/
theorem schema_idempotent_witness :
    (Except.ok (⟨[⟨"id", .Int64⟩]⟩ : Schema) : Except String Schema) =
      .ok ⟨[⟨"id", .Int64⟩]⟩ ∧
    (Except.ok (⟨[⟨"n", .Utf8⟩]⟩ : Schema) : Except String Schema) =
      .ok ⟨[⟨"n", .Utf8⟩]⟩ ∧
    (Except.ok (⟨[⟨"p", .Int32⟩]⟩ : Schema) : Except String Schema) =
      .ok ⟨[⟨"p", .Int32⟩]⟩ :=
  ⟨schema_idempotent.1 ⟨⟨[⟨"id", .Int64⟩]⟩, []⟩ _ _ rfl rfl,
   schema_idempotent.2.1 ⟨some ⟨[⟨"n", .Utf8⟩]⟩, 1024, .ok ⟨[]⟩, .ok (), .ok (), []⟩ _ _ rfl rfl,
   schema_idempotent.2.2 ⟨1024, .ok (), ⟨[⟨"p", .Int32⟩]⟩, .ok (), []⟩ _ _ rfl rfl⟩

/-- C10: whenever the in-memory source's `scan` returns `Ok` with an
iterator, every item of that iterator is `Ok`; failures are reported from the
`scan` call itself and no error item is ever yielded mid-iteration. -/
theorem memory_scan_items_all_ok :
    ∀ (src : InMemoryDataSource) (projection : Option (List String))
      (items : List (Except String RecordBatch)),
      src.scan projection = some (.ok items) →
      ∀ x ∈ items, ∃ b, x = .ok b := by
  intro src projection items h x hx
  cases projection with
  | none =>
    simp only [InMemoryDataSource.scan] at h
    cases h
    obtain ⟨b, _, hb⟩ := List.mem_map.mp hx
    exact ⟨b, hb.symm⟩
  | some cols =>
    cases hres : resolveIndices src.schema cols with
    | error e => simp [InMemoryDataSource.scan, hres] at h
    | ok is =>
      cases hproj : src.schema.project is with
      | none => simp [InMemoryDataSource.scan, hres, hproj] at h
      | some ps =>
        cases hpb : projectBatches ps is src.batches with
        | none => simp [InMemoryDataSource.scan, hres, hproj, hpb] at h
        | some pbs =>
          simp only [InMemoryDataSource.scan, hres, hproj, hpb, Option.some.injEq,
            Except.ok.injEq] at h
          subst h
          obtain ⟨b, _, hb⟩ := List.mem_map.mp hx
          exact ⟨b, hb.symm⟩

/-- Concrete three-column in-memory fixture mirroring the repository's own
test data (`id:Int64, name:Utf8, age:Int64`, one literal-valued 3-row batch). -/
def memTestSchema : Schema :=
  ⟨[⟨"id", .Int64⟩, ⟨"name", .Utf8⟩, ⟨"age", .Int64⟩]⟩

/-- Concrete batch of the in-memory fixture. -/
def memTestBatch : RecordBatch :=
  ⟨memTestSchema,
   [.literal (.Int64 (some 1)) 3, .literal (.Utf8 (some "Alice")) 3,
    .literal (.Int64 (some 30)) 3]⟩

/-- Concrete in-memory fixture source. -/
def memTestSource : InMemoryDataSource :=
  ⟨memTestSchema, [memTestBatch]⟩

/-- Batch produced by scanning the fixture with projection `["name", "age"]`. -/
def memTestProjBatch : RecordBatch :=
  ⟨⟨[⟨"name", .Utf8⟩, ⟨"age", .Int64⟩]⟩,
   [.literal (.Utf8 (some "Alice")) 3, .literal (.Int64 (some 30)) 3]⟩

/-- Item stream produced by scanning the fixture with projection
`["name", "age"]`. -/
def memTestProjected : List (Except String RecordBatch) :=
  [.ok memTestProjBatch]

/-- C10 witness: the projected scan of the repository's own in-memory test
scenario returns `Ok`, and its (sole) yielded item is `Ok`. -/
theorem memory_scan_items_all_ok_witness :
    ∃ b, (Except.ok memTestProjBatch : Except String RecordBatch) = Except.ok b :=
  memory_scan_items_all_ok memTestSource (some ["name", "age"]) memTestProjected (by decide)
    (Except.ok memTestProjBatch) (by decide)

/-- C2: for the in-memory and delimited-text sources, a projection containing
a name absent from the schema makes `scan` itself return an error — before
any batch is yielded, never a partial sequence. -/
theorem scan_fail_fast_missing_name :
    (∀ (src : InMemoryDataSource) (cols : List String) (n : String),
      n ∈ cols → (∀ f ∈ src.schema.fields, f.name ≠ n) →
      ∃ e, src.scan (some cols) = some (.error e)) ∧
    (∀ (src : CsvDataSource) (cols : List String) (n : String) (s : Schema),
      src.schemaFn = .ok s → n ∈ cols → (∀ f ∈ s.fields, f.name ≠ n) →
      ∃ e, src.scan (some cols) = some (.error e)) := by
  constructor
  · intro src cols n hmem habs
    obtain ⟨e, he⟩ := resolveIndices_error_of_absent hmem habs
    exact ⟨e, by simp [InMemoryDataSource.scan, he]⟩
  · intro src cols n s hs hmem habs
    obtain ⟨e, he⟩ := resolveIndices_error_of_absent (s := s) hmem habs
    cases hopen : src.openResult with
    | error e' => exact ⟨e', by simp [CsvDataSource.scan, hs, hopen]⟩
    | ok u =>
      cases u
      exact ⟨e, by simp [CsvDataSource.scan, hs, hopen, he]⟩

/-- Concrete CSV fixture with the same caller-supplied three-column schema
and one conforming decoded batch. -/
def csvTestSource : CsvDataSource :=
  ⟨some memTestSchema, 1024, .ok ⟨[]⟩, .ok (), .ok (), [.ok memTestBatch]⟩

/-- C2 witness: projecting by the nonexistent name `ghost` on the concrete
in-memory and CSV fixtures errors from the `scan` call itself. -/
theorem scan_fail_fast_missing_name_witness :
    (∃ e, memTestSource.scan (some ["ghost"]) = some (.error e)) ∧
    (∃ e, csvTestSource.scan (some ["ghost", "name"]) = some (.error e)) :=
  ⟨scan_fail_fast_missing_name.1 memTestSource ["ghost"] "ghost" (by decide) (by decide),
   scan_fail_fast_missing_name.2 csvTestSource ["ghost", "name"] "ghost" memTestSchema rfl
     (by decide) (by decide)⟩

/-- Helper: full characterization of a projected Parquet scan over a file
whose decoded batches conform to its embedded Arrow schema — the scan
succeeds and every decoded batch is restricted to the mask-matched columns
in the file's schema order. -/
theorem parquet_scan_filter (src : ParquetDataSource) (cols : List String)
    (hopen : src.openResult = .ok ()) (hbuild : src.buildResult = .ok ())
    (hconf : ∀ x ∈ src.fileBatches, conformsToArrow src.arrowSchema x = true) :
    ∃ items, src.scan (some cols) = some (.ok items) ∧
      items.length = src.fileBatches.length ∧
      ∀ x ∈ items, ∀ b, x = .ok b →
        b.schema.fields.map Field.name =
          (src.arrowSchema.fields.map ArrowField.name).filter (fun m => cols.contains m) := by
  have hbound : ∀ i ∈ maskIdxs cols src.arrowSchema, i < src.arrowSchema.fields.length := by
    intro i hi
    have hi' : i ∈ filterIdxs (fun f => cols.contains f.name) src.arrowSchema.fields 0 := hi
    have := filterIdxs_mem (fun f => cols.contains f.name) src.arrowSchema.fields 0 i hi'
    omega
  have hconf' : ∀ x ∈ src.fileBatches, ∀ b, x = .ok b →
      b.schema.fields.map Field.name = src.arrowSchema.fields.map ArrowField.name ∧
      b.columns.length = src.arrowSchema.fields.length := by
    intro x hx b hb
    subst hb
    have := hconf _ hx
    simp only [conformsToArrow, Bool.and_eq_true, beq_iff_eq] at this
    exact this
  have hhyp : ∀ x ∈ src.fileBatches, ∀ b, x = .ok b →
      ∀ i ∈ maskIdxs cols src.arrowSchema,
        i < b.schema.fields.length ∧ i < b.columns.length := by
    intro x hx b hb i hi
    obtain ⟨hn, hc⟩ := hconf' x hx b hb
    have hlen1 : b.schema.fields.length = src.arrowSchema.fields.length := by
      have := congrArg List.length hn
      simpa using this
    exact ⟨by rw [hlen1]; exact hbound i hi, by rw [hc]; exact hbound i hi⟩
  obtain ⟨out, hout, hlen, hpt⟩ :=
    projectItems_spec (maskIdxs cols src.arrowSchema) src.fileBatches hhyp
  refine ⟨out, ?_, hlen, ?_⟩
  · simp [ParquetDataSource.scan, hopen, hbuild, parquetReaderBatches, hout]
  · intro x hx b hb
    obtain ⟨k, hk⟩ := List.get?_of_mem hx
    have hklt : k < out.length := (List.get?_eq_some.mp hk).1
    have hklt' : k < src.fileBatches.length := by rw [← hlen]; exact hklt
    have hy : src.fileBatches.get? k = some (src.fileBatches.get ⟨k, hklt'⟩) :=
      List.get?_eq_get hklt'
    cases hyc : src.fileBatches.get ⟨k, hklt'⟩ with
    | error e =>
      have hxe := (hpt k).1 e (by rw [hy, hyc])
      rw [hk] at hxe
      cases hxe
      cases hb
    | ok b0 =>
      obtain ⟨fs, cs, hfs, hcs, hok⟩ := (hpt k).2 b0 (by rw [hy, hyc])
      rw [hk] at hok
      cases hok
      cases hb
      have hmem0 : Except.ok b0 ∈ src.fileBatches := by
        have : src.fileBatches.get? k = some (.ok b0) := by rw [hy, hyc]
        exact List.get?_mem this
      obtain ⟨hn, _⟩ := hconf' _ hmem0 b0 rfl
      have hmapped := pickList_map Field.name b0.schema.fields (maskIdxs cols src.arrowSchema)
      rw [hfs, hn] at hmapped
      have hcomp : maskIdxs cols src.arrowSchema =
          filterIdxs (fun m => cols.contains m) (src.arrowSchema.fields.map ArrowField.name) 0 :=
        filterIdxs_comp ArrowField.name (fun m => cols.contains m) src.arrowSchema.fields 0
      rw [hcomp] at hmapped
      have hfilter : pickList (src.arrowSchema.fields.map ArrowField.name)
          (filterIdxs (fun m => cols.contains m) (src.arrowSchema.fields.map ArrowField.name) 0) =
          some ((src.arrowSchema.fields.map ArrowField.name).filter (fun m => cols.contains m)) := by
        simpa using pickList_filterIdxs (fun m => cols.contains m)
          (src.arrowSchema.fields.map ArrowField.name) []
      have heq := hfilter.symm.trans hmapped
      injection heq with hthis
      exact hthis.symm

/-- C3: for the Parquet source, a projection name matching no field of the
file's Arrow schema does not make `scan` fail — the name vanishes from the
column-selection mask silently, `scan` succeeds, and the yielded batches
contain only the columns whose names were matched. -/
theorem parquet_scan_silent_drop :
    ∀ (src : ParquetDataSource) (cols : List String) (ghost : String),
      ghost ∈ cols →
      ghost ∉ src.arrowSchema.fields.map ArrowField.name →
      src.openResult = .ok () →
      src.buildResult = .ok () →
      (∀ x ∈ src.fileBatches, conformsToArrow src.arrowSchema x = true) →
      ∃ items, src.scan (some cols) = some (.ok items) ∧
        items.length = src.fileBatches.length ∧
        ∀ x ∈ items, ∀ b, x = .ok b →
          b.schema.fields.map Field.name =
            (src.arrowSchema.fields.map ArrowField.name).filter (fun m => cols.contains m) ∧
          ghost ∉ b.schema.fields.map Field.name := by
  intro src cols ghost _ hgn hopen hbuild hconf
  obtain ⟨items, hscan, hlen, hnames⟩ := parquet_scan_filter src cols hopen hbuild hconf
  refine ⟨items, hscan, hlen, ?_⟩
  intro x hx b hb
  have h1 := hnames x hx b hb
  refine ⟨h1, ?_⟩
  rw [h1]
  intro hmem
  exact hgn (List.mem_of_mem_filter hmem)

/-- Concrete Parquet fixture with the three-column file schema and one
conforming decoded batch. -/
def parquetTestSource : ParquetDataSource :=
  ⟨1024, .ok (), ⟨[⟨"id", .Int64⟩, ⟨"name", .Utf8⟩, ⟨"age", .Int64⟩]⟩, .ok (),
   [.ok memTestBatch]⟩

/-- C3 witness: scanning the concrete Parquet fixture with the projection
`["ghost", "name"]` succeeds and drops `ghost` silently. -/
theorem parquet_scan_silent_drop_witness :
    ∃ items, parquetTestSource.scan (some ["ghost", "name"]) = some (.ok items) ∧
      items.length = parquetTestSource.fileBatches.length ∧
      ∀ x ∈ items, ∀ b, x = .ok b →
        b.schema.fields.map Field.name =
          (parquetTestSource.arrowSchema.fields.map ArrowField.name).filter
            (fun m => (["ghost", "name"] : List String).contains m) ∧
        "ghost" ∉ b.schema.fields.map Field.name :=
  parquet_scan_silent_drop parquetTestSource ["ghost", "name"] "ghost"
    (by decide) (by decide) rfl rfl (by decide)

/-- C1 counterexample: on the concrete Parquet fixture, the non-empty
projection `["age", "name"]` — both names existing in the file's schema —
yields a batch whose schema field order is the file order `["name", "age"]`,
not the order the caller listed the names. -/
theorem scan_caller_order_counterexample :
    "age" ∈ parquetTestSource.arrowSchema.fields.map ArrowField.name ∧
    "name" ∈ parquetTestSource.arrowSchema.fields.map ArrowField.name ∧
    parquetTestSource.scan (some ["age", "name"]) =
      some (.ok [.ok ⟨⟨[⟨"name", .Utf8⟩, ⟨"age", .Int64⟩]⟩,
        [.literal (.Utf8 (some "Alice")) 3, .literal (.Int64 (some 30)) 3]⟩]) ∧
    ([⟨"name", .Utf8⟩, ⟨"age", .Int64⟩] : List Field).map Field.name ≠ ["age", "name"] := by
  refine ⟨by decide, by decide, by decide, by decide⟩

/-- C1 (amended): for every non-empty projection drawn from existing field
names, the in-memory and delimited-text sources yield batches that carry
exactly the requested columns with a schema in the order the caller listed
the names; the columnar-file (Parquet) source instead yields the matched
columns in the file's schema order. -/
theorem scan_projection_order :
    (∀ (src : InMemoryDataSource) (cols : List String),
      cols ≠ [] →
      (∀ n ∈ cols, ∃ f ∈ src.schema.fields, f.name = n) →
      (∀ b ∈ src.batches, src.schema.fields.length ≤ b.columns.length) →
      ∃ is ps items,
        resolveIndices src.schema cols = .ok is ∧
        pickList src.schema.fields is = some ps ∧
        ps.map Field.name = cols ∧
        src.scan (some cols) = some (.ok items) ∧
        items.length = src.batches.length ∧
        ∀ k ob, src.batches.get? k = some ob →
          ∃ cs, pickList ob.columns is = some cs ∧
            items.get? k = some (.ok ⟨⟨ps⟩, cs⟩)) ∧
    (∀ (src : CsvDataSource) (cols : List String) (s : Schema),
      src.schemaFn = .ok s →
      src.openResult = .ok () →
      src.buildResult = .ok () →
      cols ≠ [] →
      (∀ n ∈ cols, ∃ f ∈ s.fields, f.name = n) →
      (∀ x ∈ src.fileBatches, conformsTo s x = true) →
      ∃ is items,
        resolveIndices s cols = .ok is ∧
        src.scan (some cols) = some (.ok items) ∧
        items.length = src.fileBatches.length ∧
        ∀ x ∈ items, ∀ b, x = .ok b → b.schema.fields.map Field.name = cols) ∧
    (∀ (src : ParquetDataSource) (cols : List String),
      src.openResult = .ok () →
      src.buildResult = .ok () →
      (∀ x ∈ src.fileBatches, conformsToArrow src.arrowSchema x = true) →
      ∃ items, src.scan (some cols) = some (.ok items) ∧
        items.length = src.fileBatches.length ∧
        ∀ x ∈ items, ∀ b, x = .ok b →
          b.schema.fields.map Field.name =
            (src.arrowSchema.fields.map ArrowField.name).filter (fun m => cols.contains m)) := by
  refine ⟨?_, ?_, fun src cols => parquet_scan_filter src cols⟩
  · intro src cols _ hpres hwide
    obtain ⟨is, his⟩ := resolveIndices_ok_of_present hpres
    obtain ⟨ps, hps, hmap⟩ := resolveIndices_spec his
    have hbnd := resolveIndices_bound his
    have hbs : ∀ b ∈ src.batches, ∀ i ∈ is, i < b.columns.length := by
      intro b hb i hi
      exact lt_of_lt_of_le (hbnd i hi) (hwide b hb)
    obtain ⟨pbs, hpbs, hplen, hppt⟩ := projectBatches_spec ⟨ps⟩ is src.batches hbs
    refine ⟨is, ps, pbs.map Except.ok, his, hps, hmap, ?_, by simp [hplen], ?_⟩
    · simp [InMemoryDataSource.scan, his, Schema.project, hps, hpbs]
    · intro k ob hk
      obtain ⟨cs, hcs, hpk⟩ := hppt k ob hk
      refine ⟨cs, hcs, ?_⟩
      rw [List.get?_map, hpk]
      rfl
  · intro src cols s hs hopen hbuild _ hpres hconf
    obtain ⟨is, his⟩ := resolveIndices_ok_of_present hpres
    obtain ⟨ps, hps, hmap⟩ := resolveIndices_spec his
    have hbnd := resolveIndices_bound his
    have hconf' : ∀ x ∈ src.fileBatches, ∀ b, x = .ok b →
        b.schema.fields.map Field.name = s.fields.map Field.name ∧
        b.columns.length = s.fields.length := by
      intro x hx b hb
      subst hb
      have := hconf _ hx
      simp only [conformsTo, Bool.and_eq_true, beq_iff_eq] at this
      exact this
    have hhyp : ∀ x ∈ src.fileBatches, ∀ b, x = .ok b →
        ∀ i ∈ is, i < b.schema.fields.length ∧ i < b.columns.length := by
      intro x hx b hb i hi
      obtain ⟨hn, hc⟩ := hconf' x hx b hb
      have hlen1 : b.schema.fields.length = s.fields.length := by
        have := congrArg List.length hn
        simpa using this
      exact ⟨by rw [hlen1]; exact hbnd i hi, by rw [hc]; exact hbnd i hi⟩
    obtain ⟨out, hout, hlen, hpt⟩ := projectItems_spec is src.fileBatches hhyp
    refine ⟨is, out, his, ?_, hlen, ?_⟩
    · simp [CsvDataSource.scan, hs, hopen, hbuild, his, csvReaderBatches, hout]
    · intro x hx b hb
      obtain ⟨k, hk⟩ := List.get?_of_mem hx
      have hklt : k < out.length := (List.get?_eq_some.mp hk).1
      have hklt' : k < src.fileBatches.length := by rw [← hlen]; exact hklt
      have hy : src.fileBatches.get? k = some (src.fileBatches.get ⟨k, hklt'⟩) :=
        List.get?_eq_get hklt'
      cases hyc : src.fileBatches.get ⟨k, hklt'⟩ with
      | error e =>
        have hxe := (hpt k).1 e (by rw [hy, hyc])
        rw [hk] at hxe
        cases hxe
        cases hb
      | ok b0 =>
        obtain ⟨fs, cs, hfs, _, hok⟩ := (hpt k).2 b0 (by rw [hy, hyc])
        rw [hk] at hok
        cases hok
        cases hb
        have hmem0 : Except.ok b0 ∈ src.fileBatches := by
          have : src.fileBatches.get? k = some (.ok b0) := by rw [hy, hyc]
          exact List.get?_mem this
        obtain ⟨hn, _⟩ := hconf' _ hmem0 b0 rfl
        have hmapped := pickList_map Field.name b0.schema.fields is
        rw [hfs, hn] at hmapped
        have hsrcmap := pickList_map Field.name s.fields is
        rw [hps] at hsrcmap
        have heq := hsrcmap.symm.trans hmapped
        injection heq with hthis
        simpa [hmap] using hthis.symm

/-- C1 witness: the amended order contract evaluated on the three concrete
fixtures — caller order `["name", "age"]` for the in-memory and CSV sources,
file-order filtering for the Parquet source under the reordered projection
`["age", "name"]`. -/
theorem scan_projection_order_witness :
    (∃ is ps items,
      resolveIndices memTestSource.schema ["name", "age"] = .ok is ∧
      pickList memTestSource.schema.fields is = some ps ∧
      ps.map Field.name = ["name", "age"] ∧
      memTestSource.scan (some ["name", "age"]) = some (.ok items) ∧
      items.length = memTestSource.batches.length ∧
      ∀ k ob, memTestSource.batches.get? k = some ob →
        ∃ cs, pickList ob.columns is = some cs ∧
          items.get? k = some (.ok ⟨⟨ps⟩, cs⟩)) ∧
    (∃ is items,
      resolveIndices memTestSchema ["name", "age"] = .ok is ∧
      csvTestSource.scan (some ["name", "age"]) = some (.ok items) ∧
      items.length = csvTestSource.fileBatches.length ∧
      ∀ x ∈ items, ∀ b, x = .ok b →
        b.schema.fields.map Field.name = ["name", "age"]) ∧
    (∃ items, parquetTestSource.scan (some ["age", "name"]) = some (.ok items) ∧
      items.length = parquetTestSource.fileBatches.length ∧
      ∀ x ∈ items, ∀ b, x = .ok b →
        b.schema.fields.map Field.name =
          (parquetTestSource.arrowSchema.fields.map ArrowField.name).filter
            (fun m => (["age", "name"] : List String).contains m)) :=
  ⟨scan_projection_order.1 memTestSource ["name", "age"] (by decide) (by decide) (by decide),
   scan_projection_order.2.1 csvTestSource ["name", "age"] memTestSchema rfl rfl rfl
     (by decide) (by decide) (by decide),
   scan_projection_order.2.2 parquetTestSource ["age", "name"] rfl rfl (by decide)⟩

end Dbms
